import Mathlib

/-
Verification of the antikoerper collection pipeline (src/item.rs, src/output.rs).

The development shallowly embeds the digest engine, the per-item scheduler
timing and the two output sinks.  Strings are modelled as lists of
characters; Rust f64 values are modelled by the type FVal below: an exact
rational together with the special values nan, inf and neginf (decimal
parsing is modelled exactly; multiplication by the unit factors 1024^k used
by the program is exact in binary floating point, so the rational model
agrees with the code on every scaling statement proved here).  The two
fixed regular expressions of the monitoring-plugin digest and the regex
crate search semantics (leftmost match position, first-preference
alternation, greedy repetition) are embedded as executable matching
functions on character lists.  Fallible operations return Option, a panic
of the Rust code is modelled as none.
-/

namespace Antikoerper

/-- The character list of a string literal. -/
def str (s : String) : List Char := s.toList

/-- The Unicode White_Space property, the predicate used by Rust
char::is_whitespace (hence by str::trim) and by the regex character
class for whitespace. -/
def isRustWhitespace (c : Char) : Bool :=
  (0x9 ≤ c.toNat && c.toNat ≤ 0xD) || c.toNat = 0x20 || c.toNat = 0x85 ||
  c.toNat = 0xA0 || c.toNat = 0x1680 || (0x2000 ≤ c.toNat && c.toNat ≤ 0x200A) ||
  c.toNat = 0x2028 || c.toNat = 0x2029 || c.toNat = 0x202F || c.toNat = 0x205F ||
  c.toNat = 0x3000

/-- The code point ranges of the Unicode general category Nd (decimal
number), the class matched by a digit class in the regex crate. -/
def ndRanges : List (Nat × Nat) :=
  [(0x30, 0x39), (0x660, 0x669), (0x6F0, 0x6F9), (0x7C0, 0x7C9),
   (0x966, 0x96F), (0x9E6, 0x9EF), (0xA66, 0xA6F), (0xAE6, 0xAEF),
   (0xB66, 0xB6F), (0xBE6, 0xBEF), (0xC66, 0xC6F), (0xCE6, 0xCEF),
   (0xD66, 0xD6F), (0xDE6, 0xDEF), (0xE50, 0xE59), (0xED0, 0xED9),
   (0xF20, 0xF29), (0x1040, 0x1049), (0x1090, 0x1099), (0x17E0, 0x17E9),
   (0x1810, 0x1819), (0x1946, 0x194F), (0x19D0, 0x19D9), (0x1A80, 0x1A89),
   (0x1A90, 0x1A99), (0x1B50, 0x1B59), (0x1BB0, 0x1BB9), (0x1C40, 0x1C49),
   (0x1C50, 0x1C59), (0xA620, 0xA629), (0xA8D0, 0xA8D9), (0xA900, 0xA909),
   (0xA9D0, 0xA9D9), (0xA9F0, 0xA9F9), (0xAA50, 0xAA59), (0xABF0, 0xABF9),
   (0xFF10, 0xFF19), (0x104A0, 0x104A9), (0x10D30, 0x10D39),
   (0x11066, 0x1106F), (0x110F0, 0x110F9), (0x11136, 0x1113F),
   (0x111D0, 0x111D9), (0x112F0, 0x112F9), (0x11450, 0x11459),
   (0x114D0, 0x114D9), (0x11650, 0x11659), (0x116C0, 0x116C9),
   (0x11730, 0x11739), (0x118E0, 0x118E9), (0x11950, 0x11959),
   (0x11C50, 0x11C59), (0x11D50, 0x11D59), (0x11DA0, 0x11DA9),
   (0x11F50, 0x11F59), (0x16A60, 0x16A69), (0x16AC0, 0x16AC9),
   (0x16B50, 0x16B59), (0x1D7CE, 0x1D7FF), (0x1E140, 0x1E149),
   (0x1E2F0, 0x1E2F9), (0x1E4F0, 0x1E4F9), (0x1E950, 0x1E959),
   (0x1FBF0, 0x1FBF9)]

/-- Membership in the regex digit class (Unicode Nd). -/
def isNd (c : Char) : Bool :=
  ndRanges.any fun p => p.1 ≤ c.toNat && c.toNat ≤ p.2

/-- str::trim: remove leading and trailing whitespace. -/
def trim (s : List Char) : List Char :=
  ((s.dropWhile isRustWhitespace).reverse.dropWhile isRustWhitespace).reverse

/-- Model of a Rust f64 as far as this program can observe it: an exact
rational, or one of the special values.  A negative zero is identified
with zero. -/
inductive FVal where
  | nan : FVal
  | inf : FVal
  | neginf : FVal
  | num : ℚ → FVal
  deriving DecidableEq, Inhabited

/-- Multiplication of a rational by a natural constant, written through
mkRat so that the kernel can evaluate it; qScaleNat_eq below states that
it is ordinary multiplication. -/
def qScaleNat (q : ℚ) (n : Nat) : ℚ := mkRat (q.num * n) q.den

/-- f64 multiplication by a natural constant (the program only scales by
1024 ^ k, which is exact in binary floating point, so the rational model
is faithful here).  On the special values this follows IEEE: an infinity
scaled by zero is nan, otherwise the infinity is kept. -/
def FVal.scale : FVal → Nat → FVal
  | .nan, _ => .nan
  | .inf, n => if n = 0 then .nan else .inf
  | .neginf, n => if n = 0 then .nan else .neginf
  | .num q, n => .num (qScaleNat q n)

def isAsciiDigit (c : Char) : Bool := '0' ≤ c && c ≤ '9'

def digitsToNat (ds : List Char) : Nat :=
  ds.foldl (fun n c => 10 * n + (c.toNat - ('0').toNat)) 0

/-- ASCII lower-casing, as used by the case-insensitive comparison of the
special float spellings in Rust dec2flt. -/
def toLowerList (s : List Char) : List Char := s.map Char.toLower

/-- The optional exponent part of the f64 grammar: either nothing is left,
or the entire remainder is e or E, an optional sign, and at least one
digit. -/
def parseExpOpt : List Char → Option Int
  | [] => some 0
  | c :: r =>
      if c = 'e' ∨ c = 'E' then
        let signAndRest : Bool × List Char :=
          match r with
          | '-' :: rr => (true, rr)
          | '+' :: rr => (false, rr)
          | _ => (false, r)
        let ds := signAndRest.2.takeWhile isAsciiDigit
        if ds.isEmpty ∨ ¬(signAndRest.2.drop ds.length).isEmpty then none
        else some (if signAndRest.1 then -(digitsToNat ds : Int) else (digitsToNat ds : Int))
      else none

/-- The rational with decimal mantissa m and decimal exponent e, written
through mkRat so that the kernel can evaluate it; decToRat_eq below
states that it equals m times ten to the e. -/
def decToRat (m : Nat) : Int → ℚ
  | .ofNat k => mkRat (m * 10 ^ k) 1
  | .negSucc k => mkRat m (10 ^ (k + 1))

/-- The unsigned decimal part of the f64 grammar of Rust core
(str::parse for f64): digits, an optional point with further digits, an
optional exponent; at least one mantissa digit is required.  The value is
the mantissa read over the point, scaled by ten to the exponent minus the
number of fraction digits. -/
def parseDecimal (s : List Char) : Option ℚ :=
  let ip := s.takeWhile isAsciiDigit
  let r1 := s.drop ip.length
  match r1 with
  | '.' :: r2 =>
      let fp := r2.takeWhile isAsciiDigit
      let r3 := r2.drop fp.length
      if ip.isEmpty ∧ fp.isEmpty then none
      else
        (parseExpOpt r3).map fun e =>
          decToRat (digitsToNat ip * 10 ^ fp.length + digitsToNat fp) (e - fp.length)
  | _ =>
      if ip.isEmpty then none
      else (parseExpOpt r1).map fun e => decToRat (digitsToNat ip) e

/-- Rust str::parse for f64: an optional sign, then a case-insensitive
special spelling (inf, infinity, nan) or a decimal number.  Success and
failure agree exactly with the Rust grammar; the numeric value is the
exact rational (the code rounds it to the nearest f64, which is irrelevant
to every property proved here). -/
def parseF64 (s : List Char) : Option FVal :=
  match s with
  | [] => none
  | _ =>
    let signAndRest : Bool × List Char :=
      match s with
      | '-' :: r => (true, r)
      | '+' :: r => (false, r)
      | _ => (false, s)
    let low := toLowerList signAndRest.2
    if low = str "inf" ∨ low = str "infinity" then
      some (if signAndRest.1 then .neginf else .inf)
    else if low = str "nan" then some .nan
    else (parseDecimal signAndRest.2).map fun q =>
      .num (if signAndRest.1 then -q else q)

/-- The sample set of one Result: a finite map from derived metric names
to values, modelled as an association list with unique keys; insertion
replaces the value of an existing key, as HashMap::insert does. -/
abbrev SampleSet := List (List Char × FVal)

def lookupS : SampleSet → List Char → Option FVal
  | [], _ => none
  | (k', v) :: rest, k => if k' = k then some v else lookupS rest k

def insertS : SampleSet → List Char → FVal → SampleSet
  | [], k, v => [(k, v)]
  | (k', v') :: rest, k, v =>
      if k' = k then (k, v) :: rest else (k', v') :: insertS rest k v

def insertAll (vs : SampleSet) (ws : List (List Char × FVal)) : SampleSet :=
  ws.foldl (fun m p => insertS m p.1 p.2) vs

/-- The value a key holds after a list of writes is applied in order:
the value of the last write to that key, if any. -/
def lastWrite : List (List Char × FVal) → List Char → Option FVal
  | [], _ => none
  | (k', v) :: rest, k =>
      match lastWrite rest k with
      | some r => some r
      | none => if k' = k then some v else none

/-! Matching semantics of the fixed output regex of the monitoring-plugin
digest.  The pattern is an optional group holding a status token followed
by a run of non-pipe characters, then a literal pipe, then the performance
capture consisting of non-newline characters reaching the end of the
haystack.  The functions below implement the regex crate semantics for
this pattern: the match used is the one starting at the leftmost possible
position, the optional group is preferred when it can match, alternatives
are tried in the written order, and greedy repetition is maximal. -/

def statusTokens : List (List Char) :=
  [str "OK", str "WARNING", str "CRITICAL", str "UNKNOWN"]

/-- Consume up to and including the first pipe character; none when no
pipe occurs.  This is the residue after the non-pipe run and the mandatory
pipe of the pattern. -/
def afterFirstPipe : List Char → Option (List Char)
  | [] => none
  | c :: r => if c = '|' then some r else afterFirstPipe r

def noNewline (l : List Char) : Bool := l.all fun c => c != '\n'

/-- Attempt of the output pattern at one start position: either the
optional group participates with a status token at this very position, or
the group is skipped and the position holds the pipe itself.  Returns the
status capture and the performance capture. -/
def matchOutputAt (t : List Char) : Option (Option (List Char) × List Char) :=
  match statusTokens.find? (fun tok => tok.isPrefixOf t) with
  | some tok =>
      match afterFirstPipe (t.drop tok.length) with
      | some after => if noNewline after then some (some tok, after) else none
      | none => none
  | none =>
      match t with
      | c :: after =>
          if c = '|' && noNewline after then some (none, after) else none
      | [] => none

/-- Leftmost search of the output pattern. -/
def searchOutput : List Char → Option (Option (List Char) × List Char)
  | [] => none
  | t@(_ :: rest) =>
      match matchOutputAt t with
      | some r => some r
      | none => searchOutput rest

/-! Matching semantics of the fixed performance-entry regex: a label (one
character that is neither whitespace nor an equals sign, then a run of
non-equals characters), an equals sign, a value (a nonempty run of minus,
point and digit characters), an optional unit token, four optional
semicolon-led fields, and an optional trailing semicolon. -/

def isValueChar (c : Char) : Bool := c = '-' || c = '.' || isNd c

/-- The range class of the warn and crit fields: code points from the
commercial at to the tilde, the point, and digits. -/
def isWarnChar (c : Char) : Bool :=
  (('@').toNat ≤ c.toNat && c.toNat ≤ ('~').toNat) || c = '.' || isNd c

def unitTokens : List (List Char) :=
  [str "s", str "ms", str "ns", str "us", str "B", str "KB", str "MB",
   str "GB", str "TB", str "%", str "c"]

structure PerfCapture where
  label : List Char
  value : List Char
  unit : Option (List Char)
  warn : Option (List Char)
  crit : Option (List Char)
  min : Option (List Char)
  max : Option (List Char)
  deriving DecidableEq

/-- One optional semicolon-led field: participates only when the
semicolon is followed by a nonempty run of the class; otherwise the group
is skipped and nothing is consumed. -/
def optField (cls : Char → Bool) (t : List Char) : Option (List Char) × List Char :=
  match t with
  | ';' :: u =>
      let run := u.takeWhile cls
      if run.isEmpty then (none, t) else (some run, u.drop run.length)
  | _ => (none, t)

/-- Attempt of the performance-entry pattern at one start position;
returns the capture and the residue after the match. -/
def matchPerfAt (t : List Char) : Option (PerfCapture × List Char) :=
  match t with
  | [] => none
  | c :: t1 =>
      if isRustWhitespace c || c = '=' then none
      else
        let lab1 := t1.takeWhile (fun d => d != '=')
        match t1.drop lab1.length with
        | '=' :: t2 =>
            let v := t2.takeWhile isValueChar
            if v.isEmpty then none
            else
              let t3 := t2.drop v.length
              let unitAndRest : Option (List Char) × List Char :=
                match unitTokens.find? (fun tok => tok.isPrefixOf t3) with
                | some tok => (some tok, t3.drop tok.length)
                | none => (none, t3)
              let wp := optField isWarnChar unitAndRest.2
              let cp := optField isWarnChar wp.2
              let mnp := optField isValueChar cp.2
              let mxp := optField isValueChar mnp.2
              let t9 := match mxp.2 with
                | ';' :: u => u
                | u => u
              some (⟨c :: lab1, v, unitAndRest.1, wp.1, cp.1, mnp.1, mxp.1⟩, t9)
        | _ => none

/-- Leftmost search of the performance-entry pattern. -/
def perfSearch : List Char → Option (PerfCapture × List Char)
  | [] => none
  | t@(_ :: rest) =>
      match matchPerfAt t with
      | some r => some r
      | none => perfSearch rest

/-- The successive non-overlapping matches of captures_iter.  Every match
consumes at least one character, so an amount of fuel equal to the length
of the haystack is sufficient. -/
def perfCapturesGo : Nat → List Char → List PerfCapture
  | 0, _ => []
  | fuel + 1, t =>
      match perfSearch t with
      | none => []
      | some (cap, rem) => cap :: perfCapturesGo fuel rem

def perfCaptures (t : List Char) : List PerfCapture :=
  perfCapturesGo t.length t

/-! The digest engine of DigestKind::digest in src/item.rs. -/

/-- The status token to numeric code map of the MonitoringPlugin branch;
the wildcard arm of the source returns none. -/
def statusValue (tok : List Char) : Option ℚ :=
  if tok = str "OK" then some 0
  else if tok = str "WARNING" then some 1
  else if tok = str "CRITICAL" then some 2
  else if tok = str "UNKNOWN" then some 3
  else none

/-- The unit scaling factor of the MonitoringPlugin branch. -/
def unitFactor : Option (List Char) → Nat
  | some u =>
      if u = str "KB" then 1024
      else if u = str "MB" then 1024 ^ 2
      else if u = str "GB" then 1024 ^ 3
      else if u = str "TB" then 1024 ^ 4
      else 1
  | none => 1

/-- The write performed for one optional field of one performance entry:
present and parsable fields are written scaled by the unit factor,
everything else is omitted. -/
def extraWrite (itemkey label field : List Char) (v : Option (List Char))
    (factor : Nat) : List (List Char × FVal) :=
  match v with
  | none => []
  | some s =>
      match parseF64 s with
      | none => []
      | some f => [(itemkey ++ str "." ++ label ++ str "." ++ field, FVal.scale f factor)]

/-- The writes the MonitoringPlugin loop body performs for one
performance entry, in order: the main value (an unparsable value becomes
nan), then the four optional fields. -/
def entryWrites (itemkey : List Char) (cap : PerfCapture) : List (List Char × FVal) :=
  (itemkey ++ str "." ++ cap.label,
     FVal.scale ((parseF64 cap.value).getD .nan) (unitFactor cap.unit)) ::
  (extraWrite itemkey cap.label (str "warn") cap.warn (unitFactor cap.unit) ++
   extraWrite itemkey cap.label (str "crit") cap.crit (unitFactor cap.unit) ++
   extraWrite itemkey cap.label (str "min") cap.min (unitFactor cap.unit) ++
   extraWrite itemkey cap.label (str "max") cap.max (unitFactor cap.unit))

/-- The fold of the performance loop over all entries. -/
def perfFold (itemkey : List Char) (caps : List PerfCapture) (v0 : SampleSet) : SampleSet :=
  caps.foldl (fun vs cap => insertAll vs (entryWrites itemkey cap)) v0

/-- The sample set of the MonitoringPlugin branch on already trimmed
input. -/
def mpValues (itemkey : List Char) (t : List Char) : SampleSet :=
  match searchOutput t with
  | none => []
  | some (statusOpt, perf) =>
      let v0 : SampleSet :=
        match statusOpt.bind statusValue with
        | some q => insertS [] (itemkey ++ str ".status") (.num q)
        | none => []
      perfFold itemkey (perfCaptures perf) v0

/-- A compiled regex of the Regex digest mode, abstracted to what the
digest code observes: the list of named capture groups in pattern order
(capture_names flattened), and for an input either no match, or the
participation map of the named groups in the leftmost-first match. -/
structure RegexModel where
  captureNames : List (List Char)
  captures : List Char → Option (List Char → Option (List Char))

/-- The loop of the Regex branch.  Indexing a Captures value by a group
name panics when the group did not participate in the match; the panic is
modelled as none. -/
def regexLoop (caps : List Char → Option (List Char)) (itemkey : List Char) :
    List (List Char) → SampleSet → Option SampleSet
  | [], vs => some vs
  | cn :: rest, vs =>
      match caps cn with
      | some sub =>
          regexLoop caps itemkey rest
            (insertS vs (itemkey ++ str "." ++ cn) ((parseF64 sub).getD .nan))
      | none => none

inductive DigestKind where
  | Regex : RegexModel → DigestKind
  | Raw : DigestKind
  | MonitoringPlugin : DigestKind

/-- The unit of work carried on the result bus.  The time field is the
wall-clock stamp taken at digestion; the clock reading is passed in
explicitly here. -/
structure ItemResult where
  time : Nat
  key : List Char
  raw : List Char
  values : SampleSet
  deriving DecidableEq

/-- DigestKind::digest.  The input is trimmed first; the trimmed text is
what every branch parses and what the raw field of the Result retains.
The result is none exactly when the Rust code panics. -/
def digest (dk : DigestKind) (input itemkey : List Char) (now : Nat) :
    Option ItemResult :=
  let result := trim input
  match dk with
  | .Raw =>
      some ⟨now, itemkey, result,
        match parseF64 result with
        | some f => insertS [] (itemkey ++ str ".parsed") f
        | none => []⟩
  | .Regex rm =>
      match rm.captures result with
      | some caps =>
          (regexLoop caps itemkey rm.captureNames []).map
            fun vs => ⟨now, itemkey, result, vs⟩
      | none => some ⟨now, itemkey, result, []⟩
  | .MonitoringPlugin => some ⟨now, itemkey, result, mpValues itemkey result⟩

/-! A concrete Regex digest configuration: the pattern of one optional
named group of digits followed by a literal x.  Leftmost-first search: at
each position the greedy optional group first tries a maximal digit run
followed by x, otherwise the group is skipped and the position must hold
x itself. -/

/-- Matching of the pattern with group a of digits, optional, then x.
Returns none when nothing matches, some of the participation of group a
otherwise. -/
def optDigitsX : List Char → Option (Option (List Char))
  | [] => none
  | c :: rest =>
      let ds := (c :: rest).takeWhile isAsciiDigit
      if ¬ds.isEmpty ∧ ((c :: rest).drop ds.length).head? = some 'x' then
        some (some ds)
      else if c = 'x' then some none
      else optDigitsX rest

/-- The RegexModel of the compiled pattern holding x preceded by an
optional named digit group a. -/
def optGroupRegexModel : RegexModel where
  captureNames := [str "a"]
  captures s :=
    (optDigitsX s).map fun a => fun n => if n = str "a" then a else none

/-! The output sinks of src/output.rs.  One loop iteration of a sink on a
received ItemResult is modelled as the list of write operations it
performs; fallibility of the backend is an oracle saying which writes
succeed. -/

inductive WriteEvent where
  | raw : List Char → List Char → Nat → WriteEvent
  | sample : List Char → FVal → Nat → WriteEvent
  | batch : List (List Char × FVal) → Nat → WriteEvent
  deriving DecidableEq

/-- FileOutput::write_values: one write per sample, in iteration order,
aborting on the first failed write (the question mark operator).  Returns
the writes performed and whether the whole loop succeeded. -/
def fileWriteValues (ok : List Char → Bool) (time : Nat) :
    List (List Char × FVal) → List WriteEvent × Bool
  | [] => ([], true)
  | (k, v) :: rest =>
      if ok k then
        let r := fileWriteValues ok time rest
        (.sample k v time :: r.1, r.2)
      else ([], false)

/-- One loop iteration of FileOutput::start on a received ItemResult:
the raw text is written under the derived raw key when the sample set is
empty or the sink always writes raw; independently a non-empty sample set
is written value by value. -/
def fileOutputStep (alwaysWriteRaw : Bool) (okRaw : Bool) (ok : List Char → Bool)
    (r : ItemResult) : List WriteEvent :=
  (if r.values.isEmpty || alwaysWriteRaw then
     if okRaw then [.raw (r.key ++ str ".raw") r.raw r.time] else []
   else []) ++
  (if !r.values.isEmpty then (fileWriteValues ok r.time r.values).1 else [])

/-- One loop iteration of InfluxDBOutput::start: the raw text is written
when the sample set is empty and the sink uses raw as fallback, or when it
always writes raw; a non-empty sample set is submitted as one batch
query. -/
def influxOutputStep (useRawAsFallback alwaysWriteRaw : Bool)
    (okRaw okBatch : Bool) (r : ItemResult) : List WriteEvent :=
  (if (r.values.isEmpty && useRawAsFallback) || alwaysWriteRaw then
     if okRaw then [.raw (r.key ++ str ".raw") r.raw r.time] else []
   else []) ++
  (if !r.values.isEmpty then
     if okBatch then [.batch r.values r.time] else []
   else [])

def hasRawWrite (evs : List WriteEvent) : Bool :=
  evs.any fun e =>
    match e with
    | .raw _ _ _ => true
    | _ => false

/-- The samples a list of write events persists, in order. -/
def samplesWritten : List WriteEvent → List (List Char × FVal)
  | [] => []
  | .sample k v _ :: rest => (k, v) :: samplesWritten rest
  | .batch l _ :: rest => l ++ samplesWritten rest
  | .raw _ _ _ :: rest => samplesWritten rest

/-! The scheduling loop of Item::start.  The loop creates a tokio
interval of the item period and awaits a tick before every execution.
Modelled from the tokio time documentation: the interval created at task
start has its first deadline at the creation instant, so its first tick
completes immediately; the deadline of tick n stays at start plus n
periods (the default missed-tick behaviour), and a tick completes as soon
as its deadline has passed and the previous loop body is done.  dur n is
the duration of the n-th loop body. -/
def tickTime (start I : Nat) (dur : Nat → Nat) : Nat → Nat
  | 0 => start
  | n + 1 => max (start + (n + 1) * I) (tickTime start I dur n + dur n)

/-! A comparison definition for the unit-scaling claim. -/

/-- The field writes with the unit scaling removed. -/
def specExtra (itemkey label field : List Char) (v : Option (List Char)) :
    List (List Char × FVal) :=
  match v with
  | none => []
  | some s =>
      match parseF64 s with
      | none => []
      | some f => [(itemkey ++ str "." ++ label ++ str "." ++ field, f)]

/-- The writes of one performance entry with the unit scaling removed:
the parsed numbers as written in the entry, unscaled (the spec wording for
entries without a size unit). -/
def specUnscaledWrites (itemkey : List Char) (cap : PerfCapture) :
    List (List Char × FVal) :=
  (itemkey ++ str "." ++ cap.label, (parseF64 cap.value).getD .nan) ::
  (specExtra itemkey cap.label (str "warn") cap.warn ++
   specExtra itemkey cap.label (str "crit") cap.crit ++
   specExtra itemkey cap.label (str "min") cap.min ++
   specExtra itemkey cap.label (str "max") cap.max)

/-- The flat sequence of writes the performance loop performs, in
execution order. -/
def concatWrites (itemkey : List Char) : List PerfCapture → List (List Char × FVal)
  | [] => []
  | cap :: rest => entryWrites itemkey cap ++ concatWrites itemkey rest

/-! Bridge lemmas: the kernel-evaluable rational constructions used in the
model are ordinary rational arithmetic. -/

theorem qScaleNat_eq (q : ℚ) (n : Nat) : qScaleNat q n = q * n := by
  unfold qScaleNat
  rw [Rat.mkRat_eq_div]
  push_cast
  conv_rhs => rw [← Rat.num_div_den q]
  ring

theorem decToRat_eq (m : Nat) (e : Int) : decToRat m e = (m : ℚ) * (10 : ℚ) ^ e := by
  cases e with
  | ofNat k =>
      show mkRat (m * 10 ^ k) 1 = _
      rw [Rat.mkRat_one]
      push_cast
      rw [Int.ofNat_eq_natCast, zpow_natCast]
  | negSucc k =>
      show mkRat m (10 ^ (k + 1)) = _
      rw [Rat.mkRat_eq_div, zpow_negSucc, div_eq_mul_inv]
      push_cast
      ring

theorem FVal.scale_num (q : ℚ) (n : Nat) :
    FVal.scale (.num q) n = .num (q * n) := by
  simp [FVal.scale, qScaleNat_eq]

/-! Sample-set lemmas: lookup after insertion, uniqueness of keys, and the
last-write-wins reading of a sequence of insertions. -/

theorem lookupS_insertS (m : SampleSet) (k k' : List Char) (v : FVal) :
    lookupS (insertS m k v) k' = if k = k' then some v else lookupS m k' := by
  induction m with
  | nil => simp only [insertS, lookupS]
  | cons p rest ih =>
      obtain ⟨pk, pv⟩ := p
      simp only [insertS]
      by_cases h : pk = k
      · subst h
        by_cases h' : pk = k' <;> simp [lookupS, h']
      · simp only [if_neg h, lookupS, ih]
        by_cases h' : pk = k'
        · have hk : ¬k = k' := fun hh => h (h'.trans hh.symm)
          simp [h', hk]
        · simp [h']

theorem keys_insertS (m : SampleSet) (k : List Char) (v : FVal) :
    (insertS m k v).map Prod.fst
      = if k ∈ m.map Prod.fst then m.map Prod.fst else m.map Prod.fst ++ [k] := by
  induction m with
  | nil =>
      rw [List.map_nil, if_neg (List.not_mem_nil k)]
      rfl
  | cons p rest ih =>
      obtain ⟨pk, pv⟩ := p
      simp only [insertS, List.map_cons]
      by_cases h : pk = k
      · subst h
        rw [if_pos rfl, List.map_cons, if_pos (List.mem_cons_self pk (rest.map Prod.fst))]
      · rw [if_neg h, List.map_cons, ih]
        by_cases h' : k ∈ rest.map Prod.fst
        · rw [if_pos h', if_pos (List.mem_cons_of_mem pk h')]
        · rw [if_neg h', if_neg ?_, List.cons_append]
          intro hmem
          rcases List.mem_cons.mp hmem with h1 | h2
          · exact h h1.symm
          · exact h' h2

theorem keys_nodup_insertS (m : SampleSet) (k : List Char) (v : FVal)
    (h : (m.map Prod.fst).Nodup) : ((insertS m k v).map Prod.fst).Nodup := by
  rw [keys_insertS]
  by_cases h' : k ∈ m.map Prod.fst
  · rw [if_pos h']
    exact h
  · rw [if_neg h']
    rw [List.nodup_append]
    refine ⟨h, List.nodup_singleton k, ?_⟩
    intro a ha hb
    simp only [List.mem_singleton] at hb
    subst hb
    exact h' ha

theorem keys_nodup_insertAll (vs : SampleSet) (ws : List (List Char × FVal))
    (h : (vs.map Prod.fst).Nodup) : ((insertAll vs ws).map Prod.fst).Nodup := by
  induction ws generalizing vs with
  | nil => exact h
  | cons w rest ih =>
      exact ih _ (keys_nodup_insertS _ _ _ h)

theorem lookupS_insertAll (ws : List (List Char × FVal)) (vs : SampleSet) (k : List Char) :
    lookupS (insertAll vs ws) k
      = match lastWrite ws k with
        | some v => some v
        | none => lookupS vs k := by
  induction ws generalizing vs with
  | nil => simp [insertAll, lastWrite]
  | cons w rest ih =>
      obtain ⟨wk, wv⟩ := w
      show lookupS (insertAll (insertS vs wk wv) rest) k = _
      rw [ih]
      simp only [lastWrite]
      cases lastWrite rest k with
      | some r => simp
      | none =>
          simp only [lookupS_insertS]
          by_cases h : wk = k <;> simp [h]

theorem insertAll_append (vs : SampleSet) (ws1 ws2 : List (List Char × FVal)) :
    insertAll vs (ws1 ++ ws2) = insertAll (insertAll vs ws1) ws2 := by
  simp [insertAll, List.foldl_append]

theorem lastWrite_append (ws1 ws2 : List (List Char × FVal)) (k : List Char) :
    lastWrite (ws1 ++ ws2) k
      = match lastWrite ws2 k with
        | some v => some v
        | none => lastWrite ws1 k := by
  induction ws1 with
  | nil =>
      simp only [List.nil_append, lastWrite]
      cases h2 : lastWrite ws2 k <;> rfl
  | cons w rest ih =>
      obtain ⟨wk, wv⟩ := w
      simp only [List.cons_append, lastWrite, List.append_eq, ih]
      cases h2 : lastWrite ws2 k <;> rfl

theorem lastWrite_eq_none_iff (ws : List (List Char × FVal)) (k : List Char) :
    lastWrite ws k = none ↔ k ∉ ws.map Prod.fst := by
  induction ws with
  | nil => simp [lastWrite]
  | cons w rest ih =>
      obtain ⟨wk, wv⟩ := w
      show (match lastWrite rest k with
            | some r => some r
            | none => if wk = k then some wv else none) = none ↔ _
      rw [List.map_cons]
      cases h : lastWrite rest k with
      | some r =>
          have hk : k ∈ rest.map Prod.fst := by
            by_contra hc
            have h0 := ih.mpr hc
            rw [h] at h0
            exact Option.noConfusion h0
          constructor
          · intro h0
            exact Option.noConfusion h0
          · intro h0
            exact (h0 (List.mem_cons_of_mem wk hk)).elim
      | none =>
          have hrest := ih.mp h
          by_cases h' : wk = k
          · subst h'
            constructor
            · intro h0
              rw [if_pos rfl] at h0
              exact Option.noConfusion h0
            · intro h0
              exact (h0 (List.mem_cons_self wk (rest.map Prod.fst))).elim
          · constructor
            · intro _ hmem
              rcases List.mem_cons.mp hmem with h1 | h2
              · exact h' h1.symm
              · exact hrest h2
            · intro _
              rw [if_neg h']

/-! Lemmas on the output-pattern search: a haystack without a pipe never
matches, and a haystack whose prefix before the pipe holds no status token
matches with the status group absent and everything after the pipe as the
performance capture. -/

theorem mem_of_mem_dropWhile {p : Char → Bool} {l : List Char} {a : Char}
    (h : a ∈ l.dropWhile p) : a ∈ l := by
  induction l with
  | nil => simp at h
  | cons c rest ih =>
      rw [List.dropWhile_cons] at h
      by_cases hc : p c
      · rw [if_pos hc] at h
        exact List.mem_cons_of_mem c (ih h)
      · rw [if_neg hc] at h
        exact h

theorem mem_of_mem_trim {c : Char} {s : List Char} (h : c ∈ trim s) : c ∈ s := by
  unfold trim at h
  rw [List.mem_reverse] at h
  have h1 := mem_of_mem_dropWhile h
  rw [List.mem_reverse] at h1
  exact mem_of_mem_dropWhile h1

theorem pipe_mem_of_afterFirstPipe {l r : List Char}
    (h : afterFirstPipe l = some r) : '|' ∈ l := by
  induction l with
  | nil => exact Option.noConfusion h
  | cons c rest ih =>
      by_cases hc : c = '|'
      · subst hc
        exact List.mem_cons_self _ _
      · rw [afterFirstPipe, if_neg hc] at h
        exact List.mem_cons_of_mem c (ih h)

theorem noNewline_eq_true {l : List Char} (h : '\n' ∉ l) : noNewline l = true := by
  unfold noNewline
  rw [List.all_eq_true]
  intro c hc
  have hne : c ≠ '\n' := fun hh => h (hh ▸ hc)
  simpa [bne_iff_ne] using hne

theorem matchOutputAt_eq_none {t : List Char} (h : '|' ∉ t) :
    matchOutputAt t = none := by
  unfold matchOutputAt
  cases hf : statusTokens.find? (fun tok => tok.isPrefixOf t) with
  | some tok =>
      show (match afterFirstPipe (t.drop tok.length) with
            | some after => if noNewline after = true then some (some tok, after) else none
            | none => none) = none
      cases ha : afterFirstPipe (t.drop tok.length) with
      | some after =>
          exact absurd (List.drop_subset _ _ (pipe_mem_of_afterFirstPipe ha)) h
      | none => rfl
  | none =>
      cases t with
      | nil => rfl
      | cons c after =>
          have hc : c ≠ '|' := fun hh => h (hh ▸ List.mem_cons_self c after)
          show (if (decide (c = '|') && noNewline after) = true
                then some (none, after) else none) = none
          have hb : ¬(decide (c = '|') && noNewline after) = true := by
            intro hb
            rw [Bool.and_eq_true] at hb
            exact hc (of_decide_eq_true hb.1)
          rw [if_neg hb]

theorem searchOutput_eq_none {t : List Char} (h : '|' ∉ t) : searchOutput t = none := by
  induction t with
  | nil => rfl
  | cons c rest ih =>
      show (match matchOutputAt (c :: rest) with
            | some r => some r
            | none => searchOutput rest) = none
      rw [matchOutputAt_eq_none h, ih (fun hm => h (List.mem_cons_of_mem c hm))]

theorem searchOutput_pipe (pre post : List Char) (hp : '|' ∉ pre)
    (ht : ∀ i, i < pre.length → ∀ tok ∈ statusTokens,
        tok.isPrefixOf ((pre ++ '|' :: post).drop i) = false)
    (hn : '\n' ∉ post) :
    searchOutput (pre ++ '|' :: post) = some (none, post) := by
  induction pre with
  | nil =>
      rw [List.nil_append]
      show (match matchOutputAt ('|' :: post) with
            | some r => some r
            | none => searchOutput post) = _
      have hm : matchOutputAt ('|' :: post) = some (none, post) := by
        show (if (decide ('|' = '|') && noNewline post) = true
              then some (none, post) else none) = _
        rw [noNewline_eq_true hn]
        simp
      rw [hm]
  | cons c pre ih =>
      simp only [List.cons_append]
      have hmatch : matchOutputAt (c :: (pre ++ '|' :: post)) = none := by
        unfold matchOutputAt
        have hfind : statusTokens.find?
            (fun tok => tok.isPrefixOf (c :: (pre ++ '|' :: post))) = none := by
          rw [List.find?_eq_none]
          intro tok htok
          have h0 := ht 0 (by simp) tok htok
          simp only [List.drop_zero, List.cons_append] at h0
          simp [h0]
        rw [hfind]
        have hc : c ≠ '|' := fun hh => hp (hh ▸ List.mem_cons_self c pre)
        show (if (decide (c = '|') && noNewline (pre ++ '|' :: post)) = true
              then some (none, pre ++ '|' :: post) else none) = none
        have hb : ¬(decide (c = '|') && noNewline (pre ++ '|' :: post)) = true := by
          intro hb
          rw [Bool.and_eq_true] at hb
          exact hc (of_decide_eq_true hb.1)
        rw [if_neg hb]
      show (match matchOutputAt (c :: (pre ++ '|' :: post)) with
            | some r => some r
            | none => searchOutput (pre ++ '|' :: post)) = _
      rw [hmatch]
      refine ih (fun hm => hp (List.mem_cons_of_mem c hm)) ?_
      intro i hi tok htok
      have h0 := ht (i + 1) (Nat.succ_lt_succ hi) tok htok
      simpa [List.cons_append, List.drop_succ_cons] using h0

theorem perfFold_eq_insertAll (itemkey : List Char) (caps : List PerfCapture) (v0 : SampleSet) :
    perfFold itemkey caps v0 = insertAll v0 (concatWrites itemkey caps) := by
  induction caps generalizing v0 with
  | nil => rfl
  | cons cap rest ih =>
      show perfFold itemkey rest (insertAll v0 (entryWrites itemkey cap)) = _
      rw [ih, concatWrites, insertAll_append]

/-! Digest-level and sink-level helper lemmas. -/

theorem digest_raw_isSome (s key : List Char) (now : Nat) :
    (digest .Raw s key now).isSome = true := rfl

theorem digest_mp_isSome (s key : List Char) (now : Nat) :
    (digest .MonitoringPlugin s key now).isSome = true := rfl

theorem digest_mp_values (s key : List Char) (now : Nat) :
    (digest .MonitoringPlugin s key now).map ItemResult.values
      = some (mpValues key (trim s)) := rfl

theorem digest_raw_values (s key : List Char) (now : Nat) :
    (digest .Raw s key now).map ItemResult.values
      = some (match parseF64 (trim s) with
              | some f => insertS [] (key ++ str ".parsed") f
              | none => []) := rfl

theorem digest_raw_field (dk : DigestKind) (s key : List Char) (now : Nat) (r : ItemResult)
    (h : digest dk s key now = some r) : r.raw = trim s := by
  cases dk with
  | Raw =>
      have h2 : (⟨now, key, trim s,
          match parseF64 (trim s) with
          | some f => insertS [] (key ++ str ".parsed") f
          | none => []⟩ : ItemResult) = r := Option.some.inj h
      rw [← h2]
  | MonitoringPlugin =>
      have h2 : (⟨now, key, trim s, mpValues key (trim s)⟩ : ItemResult) = r :=
        Option.some.inj h
      rw [← h2]
  | Regex rm =>
      revert h
      show (match rm.captures (trim s) with
            | some caps =>
                (regexLoop caps key rm.captureNames []).map
                  fun vs => ⟨now, key, trim s, vs⟩
            | none => some ⟨now, key, trim s, []⟩) = some r → r.raw = trim s
      cases hc : rm.captures (trim s) with
      | some caps =>
          intro h
          rw [Option.map_eq_some'] at h
          obtain ⟨vs, hvs, hr⟩ := h
          rw [← hr]
      | none =>
          intro h
          have h2 := Option.some.inj h
          rw [← h2]

theorem mpValues_eq_nil {key t : List Char} (h : '|' ∉ t) : mpValues key t = [] := by
  unfold mpValues
  rw [searchOutput_eq_none h]

theorem mpValues_no_status (key pre post : List Char) (hp : '|' ∉ pre)
    (ht : ∀ i, i < pre.length → ∀ tok ∈ statusTokens,
        tok.isPrefixOf ((pre ++ '|' :: post).drop i) = false)
    (hn : '\n' ∉ post) :
    mpValues key (pre ++ '|' :: post) = perfFold key (perfCaptures post) [] := by
  unfold mpValues
  rw [searchOutput_pipe pre post hp ht hn]
  rfl

theorem fileWriteValues_all_ok (t : Nat) (vs : List (List Char × FVal)) :
    (fileWriteValues (fun _ => true) t vs).1
      = vs.map fun p => WriteEvent.sample p.1 p.2 t := by
  induction vs with
  | nil => rfl
  | cons p rest ih =>
      obtain ⟨k, v⟩ := p
      show WriteEvent.sample k v t :: (fileWriteValues (fun _ => true) t rest).1
          = WriteEvent.sample k v t :: rest.map fun p => WriteEvent.sample p.1 p.2 t
      rw [ih]

theorem samplesWritten_append (l1 l2 : List WriteEvent) :
    samplesWritten (l1 ++ l2) = samplesWritten l1 ++ samplesWritten l2 := by
  induction l1 with
  | nil => rfl
  | cons e rest ih =>
      cases e <;> simp [samplesWritten, ih]

theorem samplesWritten_fileWriteValues (ok : List Char → Bool) (t : Nat)
    (vs : List (List Char × FVal)) :
    samplesWritten (fileWriteValues ok t vs).1 = vs.takeWhile fun p => ok p.1 := by
  induction vs with
  | nil => rfl
  | cons p rest ih =>
      obtain ⟨k, v⟩ := p
      by_cases hk : ok k = true
      · have hv : fileWriteValues ok t ((k, v) :: rest)
            = (WriteEvent.sample k v t :: (fileWriteValues ok t rest).1,
               (fileWriteValues ok t rest).2) := by
          simp only [fileWriteValues, if_pos hk]
        rw [hv, List.takeWhile_cons, if_pos hk]
        show (k, v) :: samplesWritten (fileWriteValues ok t rest).1 = _
        rw [ih]
      · have hv : fileWriteValues ok t ((k, v) :: rest) = ([], false) := by
          simp only [fileWriteValues, if_neg hk]
        rw [hv, List.takeWhile_cons, if_neg hk]
        rfl

theorem hasRawWrite_append (l1 l2 : List WriteEvent) :
    hasRawWrite (l1 ++ l2) = (hasRawWrite l1 || hasRawWrite l2) := by
  simp [hasRawWrite, List.any_append]

theorem hasRawWrite_samples (vs : List (List Char × FVal)) (t : Nat) :
    hasRawWrite (vs.map fun p => WriteEvent.sample p.1 p.2 t) = false := by
  induction vs with
  | nil => rfl
  | cons p rest ih =>
      simpa [hasRawWrite, List.any_cons] using ih

theorem extraWrite_eq_map (itemkey label field : List Char) (v : Option (List Char))
    (factor : Nat) :
    extraWrite itemkey label field v factor
      = (specExtra itemkey label field v).map fun p => (p.1, FVal.scale p.2 factor) := by
  cases v with
  | none => rfl
  | some s =>
      cases h : parseF64 s with
      | none => simp [extraWrite, specExtra, h]
      | some f => simp [extraWrite, specExtra, h]

theorem append_left_inj {a x y : List Char} (h : a ++ x = a ++ y) : x = y :=
  (List.append_inj h rfl).2

theorem fieldKey_ne_mainKey (key label field : List Char) (hf : field ≠ []) :
    key ++ str "." ++ label ++ str "." ++ field ≠ key ++ str "." ++ label := by
  intro h
  have hlen := congrArg List.length h
  have hdot : (str ".").length = 1 := rfl
  simp only [List.length_append, hdot] at hlen
  have hpos : 0 < field.length := List.length_pos.mpr hf
  omega

theorem fieldKey_inj (key label f1 f2 : List Char)
    (h : key ++ str "." ++ label ++ str "." ++ f1 = key ++ str "." ++ label ++ str "." ++ f2) :
    f1 = f2 :=
  append_left_inj h

theorem mem_extraWrite_keys {itemkey label field : List Char} {v : Option (List Char)}
    {factor : Nat} {k : List Char}
    (h : k ∈ (extraWrite itemkey label field v factor).map Prod.fst) :
    k = itemkey ++ str "." ++ label ++ str "." ++ field := by
  cases v with
  | none => simp [extraWrite] at h
  | some s =>
      cases hp : parseF64 s with
      | none => simp [extraWrite, hp] at h
      | some f => simpa [extraWrite, hp] using h

/-! Claim theorems. -/

/-- Claim C1: digest is claimed to return an ItemResult for every input,
key and mode, never crashing, in particular for a regex with an optional
named capture group on an input matching without that group.  The Raw and
MonitoringPlugin branches are total, but the Regex branch indexes the
captures by group name, which panics when the group did not participate:
with the pattern of an optional digit group a before x, input x produces
no ItemResult (the panic is the none outcome). -/
theorem C1_regex_digest_panics :
    (∀ (s key : List Char) (now : Nat), (digest .Raw s key now).isSome = true)
  ∧ (∀ (s key : List Char) (now : Nat),
       (digest .MonitoringPlugin s key now).isSome = true)
  ∧ digest (.Regex optGroupRegexModel) (str "x") (str "k") 0 = none :=
  ⟨fun s key now => digest_raw_isSome s key now,
   fun s key now => digest_mp_isSome s key now, rfl⟩

/-- Claim C5 counterexample: with interval five and a task starting at
time zero, the first tick of the scheduling loop completes at time zero,
not after one full interval as claimed. -/
theorem C5_counterexample :
    tickTime 0 5 (fun _ => 0) 0 = 0 ∧ (0 : Nat) ≠ 5 := ⟨rfl, by decide⟩

/-- Claim C5 amended: the first source execution of the item loop fires
immediately at task start (the tokio interval completes its first tick at
once); thereafter, when every loop body fits within the interval, tick n
completes at start plus n intervals. -/
theorem C5_first_tick_immediate :
    (∀ (start I : Nat) (dur : Nat → Nat), tickTime start I dur 0 = start)
  ∧ (∀ (start I : Nat) (dur : Nat → Nat), (∀ m, dur m ≤ I) →
       ∀ n, tickTime start I dur n = start + n * I) := by
  constructor
  · intro start I dur
    rfl
  · intro start I dur hd n
    induction n with
    | zero => simp [tickTime]
    | succ n ih =>
        show max (start + (n + 1) * I) (tickTime start I dur n + dur n) = _
        rw [ih]
        have h1 : start + n * I + dur n ≤ start + (n + 1) * I := by
          rw [Nat.succ_mul]
          have := hd n
          omega
        rw [Nat.max_eq_left h1]

/-- Witness for the amended claim C5 at concrete inputs. -/
theorem C5_witness :
    (∀ m : Nat, (fun _ : Nat => 2) m ≤ 5) ∧ tickTime 3 5 (fun _ => 2) 4 = 3 + 4 * 5 :=
  ⟨fun _ => by show 2 ≤ 5; decide,
   C5_first_tick_immediate.2 3 5 (fun _ => 2) (fun _ => by show 2 ≤ 5; decide) 4⟩

/-- Claim C6 counterexample: digesting an input with trailing whitespace
stores the trimmed text in the raw field, not the original input. -/
theorem C6_counterexample :
    (digest .Raw (str "42.5\n") (str "k") 0).map ItemResult.raw = some (str "42.5")
  ∧ str "42.5" ≠ str "42.5\n" := ⟨rfl, by decide⟩

/-- Claim C6 amended: for every digest mode, the raw field of a produced
ItemResult is the whitespace-trimmed input (which is the original input
exactly when that has no leading or trailing whitespace). -/
theorem C6_raw_is_trimmed :
    ∀ (dk : DigestKind) (s key : List Char) (now : Nat) (r : ItemResult),
      digest dk s key now = some r → r.raw = trim s :=
  fun dk s key now r h => digest_raw_field dk s key now r h

/-- Witness for the amended claim C6 at a concrete input. -/
theorem C6_witness :
    digest .Raw (str " 1") (str "k") 0
      = some ⟨0, str "k", str "1", [(str "k.parsed", FVal.num 1)]⟩
  ∧ (⟨0, str "k", str "1", [(str "k.parsed", FVal.num 1)]⟩ : ItemResult).raw
      = trim (str " 1") :=
  ⟨by decide, C6_raw_is_trimmed .Raw (str " 1") (str "k") 0 _ (by decide)⟩

/-- Claim C8: Raw digest mode emits exactly the parsed sample when the
trimmed text parses as a float, and nothing otherwise; including the two
spec examples. -/
theorem C8_raw_mode :
    (∀ (s key : List Char) (now : Nat) (v : FVal), parseF64 (trim s) = some v →
       (digest .Raw s key now).map ItemResult.values
         = some [(key ++ str ".parsed", v)])
  ∧ (∀ (s key : List Char) (now : Nat), parseF64 (trim s) = none →
       (digest .Raw s key now).map ItemResult.values = some [])
  ∧ (digest .Raw (str "42.5\n") (str "k") 0).map ItemResult.values
      = some [(str "k.parsed", FVal.num 42.5)]
  ∧ (digest .Raw (str "not-a-number") (str "k") 0).map ItemResult.values = some [] := by
  refine ⟨?_, ?_, ?_, by decide⟩
  · intro s key now v h
    rw [digest_raw_values, h]
    rfl
  · intro s key now h
    rw [digest_raw_values, h]
  · have h42 : (42.5 : ℚ) = mkRat 85 2 := by
      rw [Rat.mkRat_eq_div]
      norm_num
    rw [h42]
    decide

/-- Witness for claim C8 at concrete inputs. -/
theorem C8_witness :
    parseF64 (trim (str "7")) = some (FVal.num 7)
  ∧ (digest .Raw (str "7") (str "k") 0).map ItemResult.values
      = some [(str "k" ++ str ".parsed", FVal.num 7)]
  ∧ parseF64 (trim (str "x")) = none
  ∧ (digest .Raw (str "x") (str "k") 0).map ItemResult.values = some [] :=
  ⟨by decide, C8_raw_mode.1 (str "7") (str "k") 0 (FVal.num 7) (by decide),
   by decide, C8_raw_mode.2.1 (str "x") (str "k") 0 (by decide)⟩

/-- Claim C3 counterexample: an input whose text before the pipe holds no
recognized status token still has its performance segment parsed; the
sample set is not empty. -/
theorem C3_counterexample :
    (digest .MonitoringPlugin (str "foo|load1=5;") (str "k") 0).map ItemResult.values
      = some [(str "k.load1", FVal.num 5)]
  ∧ (digest .MonitoringPlugin (str "foo|load1=5;") (str "k") 0).map ItemResult.values
      ≠ some [] := ⟨by decide, by decide⟩

/-- Claim C3 amended: absence of the pipe separator means no parsing at
all (empty sample set); absence of a recognized status token before the
pipe only omits the status sample, while the performance segment after
the pipe is still parsed as usual. -/
theorem C3_no_pipe_no_status :
    (∀ (s key : List Char) (now : Nat), '|' ∉ s →
       (digest .MonitoringPlugin s key now).map ItemResult.values = some [])
  ∧ (∀ (pre post key : List Char) (now : Nat),
       trim (pre ++ '|' :: post) = pre ++ '|' :: post →
       '|' ∉ pre →
       (∀ i, i < pre.length → ∀ tok ∈ statusTokens,
           tok.isPrefixOf ((pre ++ '|' :: post).drop i) = false) →
       '\n' ∉ post →
       (digest .MonitoringPlugin (pre ++ '|' :: post) key now).map ItemResult.values
         = some (perfFold key (perfCaptures post) [])) := by
  constructor
  · intro s key now h
    rw [digest_mp_values, mpValues_eq_nil (fun hm => h (mem_of_mem_trim hm))]
  · intro pre post key now htrim hp ht hn
    rw [digest_mp_values, htrim, mpValues_no_status key pre post hp ht hn]

/-- Witness for the amended claim C3 at concrete inputs. -/
theorem C3_witness :
    ('|' ∉ str "abc")
  ∧ (digest .MonitoringPlugin (str "abc") (str "k") 0).map ItemResult.values = some []
  ∧ (digest .MonitoringPlugin (str "foo" ++ '|' :: str "x=1") (str "k") 0).map
        ItemResult.values
      = some (perfFold (str "k") (perfCaptures (str "x=1")) []) :=
  ⟨by decide, C3_no_pipe_no_status.1 (str "abc") (str "k") 0 (by decide),
   C3_no_pipe_no_status.2 (str "foo") (str "x=1") (str "k") 0 (by decide) (by decide)
     (by decide) (by decide)⟩

/-- Claim C4 counterexample: a performance entry whose value portion
matches the grammar but fails to parse as a number is not skipped; it
emits the label sample with value nan. -/
theorem C4_counterexample :
    (digest .MonitoringPlugin (str "|x=1.2.3") (str "k") 0).map ItemResult.values
      = some [(str "k.x", FVal.nan)]
  ∧ parseF64 (str "1.2.3") = none := ⟨by decide, by decide⟩

/-- Claim C4 amended: an entry with an unparsable value still emits the
main label sample, with value nan; an unparsable optional field only
omits that field sample (its derived key is never written); and the
MonitoringPlugin digest never crashes. -/
theorem C4_unparsable_values :
    (∀ (key : List Char) (cap : PerfCapture), parseF64 cap.value = none →
       (entryWrites key cap).head? = some (key ++ str "." ++ cap.label, FVal.nan))
  ∧ (∀ (key : List Char) (cap : PerfCapture) (w : List Char),
       cap.warn = some w → parseF64 w = none →
       (key ++ str "." ++ cap.label ++ str "." ++ str "warn")
         ∉ (entryWrites key cap).map Prod.fst)
  ∧ (∀ (s key : List Char) (now : Nat),
       (digest .MonitoringPlugin s key now).isSome = true) := by
  refine ⟨?_, ?_, fun s key now => digest_mp_isSome s key now⟩
  · intro key cap h
    show some (key ++ str "." ++ cap.label,
        FVal.scale ((parseF64 cap.value).getD .nan) (unitFactor cap.unit)) = _
    rw [h]
    rfl
  · intro key cap w hw hpw hmem
    have hwarn : extraWrite key cap.label (str "warn") cap.warn (unitFactor cap.unit) = [] := by
      rw [hw]
      show (match parseF64 w with
            | none => []
            | some f => [(key ++ str "." ++ cap.label ++ str "." ++ str "warn",
                FVal.scale f (unitFactor cap.unit))]) = []
      rw [hpw]
    rcases List.mem_cons.mp hmem with h1 | h2
    · exact fieldKey_ne_mainKey key cap.label (str "warn") (by decide) h1
    · rw [List.map_append, List.map_append, List.map_append, hwarn] at h2
      rcases List.mem_append.mp h2 with h3 | h4
      · rcases List.mem_append.mp h3 with h5 | h6
        · rcases List.mem_append.mp h5 with h7 | h8
          · simp at h7
          · have := fieldKey_inj key cap.label _ _ (mem_extraWrite_keys h8)
            exact absurd this (by decide)
        · have := fieldKey_inj key cap.label _ _ (mem_extraWrite_keys h6)
          exact absurd this (by decide)
      · have := fieldKey_inj key cap.label _ _ (mem_extraWrite_keys h4)
        exact absurd this (by decide)

/-- Witness for the amended claim C4 at a concrete entry. -/
theorem C4_witness :
    parseF64 (str "1.2.3") = none
  ∧ (entryWrites (str "k")
        ⟨str "x", str "1.2.3", none, some (str "NaNx"), none, none, none⟩).head?
      = some (str "k" ++ str "." ++ str "x", FVal.nan)
  ∧ (str "k" ++ str "." ++ str "x" ++ str "." ++ str "warn")
      ∉ (entryWrites (str "k")
           ⟨str "x", str "1.2.3", none, some (str "NaNx"), none, none, none⟩).map
          Prod.fst :=
  ⟨by decide,
   C4_unparsable_values.1 (str "k") _ (by decide),
   C4_unparsable_values.2.1 (str "k") _ (str "NaNx") rfl (by decide)⟩

theorem samplesWritten_samples (vs : List (List Char × FVal)) (t : Nat) :
    samplesWritten (vs.map fun p => WriteEvent.sample p.1 p.2 t) = vs := by
  induction vs with
  | nil => rfl
  | cons p rest ih =>
      show p :: samplesWritten (rest.map fun p => WriteEvent.sample p.1 p.2 t) = p :: rest
      rw [ih]

theorem hasRawWrite_nil : hasRawWrite [] = false := rfl

theorem hasRawWrite_raw_cons (k s : List Char) (t : Nat) (rest : List WriteEvent) :
    hasRawWrite (WriteEvent.raw k s t :: rest) = true := by
  simp [hasRawWrite, List.any_cons]

theorem hasRawWrite_sample_cons (k : List Char) (v : FVal) (t : Nat)
    (rest : List WriteEvent) :
    hasRawWrite (WriteEvent.sample k v t :: rest) = hasRawWrite rest := by
  simp [hasRawWrite, List.any_cons]

theorem hasRawWrite_batch_cons (l : List (List Char × FVal)) (t : Nat)
    (rest : List WriteEvent) :
    hasRawWrite (WriteEvent.batch l t :: rest) = hasRawWrite rest := by
  simp [hasRawWrite, List.any_cons]

theorem mainKey_mem_concatWrites (key : List Char) (caps : List PerfCapture)
    (cap : PerfCapture) (h : cap ∈ caps) :
    (key ++ str "." ++ cap.label) ∈ (concatWrites key caps).map Prod.fst := by
  induction caps with
  | nil => simp at h
  | cons c rest ih =>
      show _ ∈ (entryWrites key c ++ concatWrites key rest).map Prod.fst
      rw [List.map_append]
      rcases List.mem_cons.mp h with h1 | h2
      · subst h1
        apply List.mem_append_left
        exact List.mem_cons_self _ _
      · exact List.mem_append_right _ (ih h2)

/-- Claim C2 counterexample: the time-series sink does not follow the
claimed uniform raw-persistence rule.  With both of its flags clear and an
empty sample set, the claimed rule (persist raw when the sample set is
empty) requires a raw write, yet the sink writes nothing. -/
theorem C2_counterexample :
    influxOutputStep false false true true ⟨0, str "k", str "out", []⟩ = []
  ∧ (⟨0, str "k", str "out", []⟩ : ItemResult).values.isEmpty = true := ⟨rfl, rfl⟩

/-- Claim C2 amended: the file sink persists the raw text exactly when
the sample set is empty or its always-write-raw flag is set; the
time-series sink persists the raw text exactly when the sample set is
empty AND its use-raw-as-fallback flag is set, or its always-write-raw
flag is set.  Independently, with a healthy backend, both sinks persist
every sample of the Result. -/
theorem C2_raw_persistence_rules :
    ∀ (awr fb : Bool) (r : ItemResult),
      hasRawWrite (fileOutputStep awr true (fun _ => true) r)
        = (r.values.isEmpty || awr)
    ∧ samplesWritten (fileOutputStep awr true (fun _ => true) r) = r.values
    ∧ hasRawWrite (influxOutputStep fb awr true true r)
        = ((r.values.isEmpty && fb) || awr)
    ∧ samplesWritten (influxOutputStep fb awr true true r) = r.values := by
  intro awr fb r
  obtain ⟨t, k, raw, values⟩ := r
  cases values with
  | nil =>
      cases awr <;> cases fb <;>
        simp [fileOutputStep, influxOutputStep, hasRawWrite, samplesWritten]
  | cons v rest =>
      cases awr <;> cases fb <;>
        simp [fileOutputStep, influxOutputStep, hasRawWrite_append,
          hasRawWrite_raw_cons, hasRawWrite_nil, hasRawWrite_sample_cons,
          hasRawWrite_batch_cons, samplesWritten_append, samplesWritten,
          fileWriteValues_all_ok, hasRawWrite_samples, samplesWritten_samples]

/-- Claim C9 counterexample: the file sink persists samples one by one
and the question mark operator aborts the loop at the first failure, so a
strict non-empty subset of a Result's samples can be persisted: with two
samples and a backend accepting only the first key, exactly one sample is
written. -/
theorem C9_counterexample :
    (fileWriteValues (fun k => k == str "a") 7
        [(str "a", FVal.num 1), (str "b", FVal.num 2)]).1
      = [WriteEvent.sample (str "a") (FVal.num 1) 7]
  ∧ ([(str "a", FVal.num 1), (str "b", FVal.num 2)] : List (List Char × FVal)).length
      = 2 := ⟨rfl, rfl⟩

/-- Claim C9 amended: per Result, the file sink persists the prefix of
its sample iteration up to the first failed write (so a strict non-empty
subset may persist), while the time-series sink submits one batch query
and therefore persists either every sample of the Result or none. -/
theorem C9_per_result_persistence :
    ∀ (ok : List Char → Bool) (fb awr okRaw okBatch : Bool) (r : ItemResult),
      samplesWritten (fileOutputStep awr okRaw ok r)
        = r.values.takeWhile (fun p => ok p.1)
    ∧ (samplesWritten (influxOutputStep fb awr okRaw okBatch r) = r.values
       ∨ samplesWritten (influxOutputStep fb awr okRaw okBatch r) = []) := by
  intro ok fb awr okRaw okBatch r
  obtain ⟨t, k, raw, values⟩ := r
  cases values with
  | nil =>
      cases awr <;> cases fb <;> cases okRaw <;> cases okBatch <;>
        simp [fileOutputStep, influxOutputStep, hasRawWrite, samplesWritten]
  | cons v rest =>
      constructor
      · cases awr <;> cases okRaw <;>
          simp [fileOutputStep, samplesWritten_append, samplesWritten,
            samplesWritten_fileWriteValues]
      · cases awr <;> cases fb <;> cases okRaw <;> cases okBatch <;>
          simp [influxOutputStep, samplesWritten_append, samplesWritten]

/-- Claim C7: every sample emitted for a performance entry (the main value
and every present warn/crit/min/max field) is the unscaled parsed number
multiplied by the unit factor; the factor is 1024, 1024 squared, cubed and
to the fourth for KB, MB, GB and TB, and one for every other unit and for
no unit; scaling of a numeric value is ordinary multiplication; and the
entry mem=2MB yields the sample 2 * 1024 ^ 2. -/
theorem C7_unit_scaling :
    (∀ (key : List Char) (cap : PerfCapture),
       entryWrites key cap
         = (specUnscaledWrites key cap).map
             fun p => (p.1, FVal.scale p.2 (unitFactor cap.unit)))
  ∧ (∀ (q : ℚ) (n : Nat), FVal.scale (.num q) n = .num (q * n))
  ∧ unitFactor (some (str "KB")) = 1024
  ∧ unitFactor (some (str "MB")) = 1024 ^ 2
  ∧ unitFactor (some (str "GB")) = 1024 ^ 3
  ∧ unitFactor (some (str "TB")) = 1024 ^ 4
  ∧ (∀ u : Option (List Char),
       u ∈ ([some (str "s"), some (str "ms"), some (str "ns"), some (str "us"),
             some (str "B"), some (str "%"), some (str "c"), none] :
            List (Option (List Char))) →
       unitFactor u = 1)
  ∧ (digest .MonitoringPlugin (str "|mem=2MB") (str "k") 0).map ItemResult.values
      = some [(str "k.mem", FVal.num (2 * 1024 ^ 2))] := by
  refine ⟨?_, FVal.scale_num, by decide, by decide, by decide, by decide, by decide, ?_⟩
  · intro key cap
    simp [entryWrites, specUnscaledWrites, extraWrite_eq_map, List.map_append]
  · have h2m : (2 * 1024 ^ 2 : ℚ) = (2097152 : ℚ) := by norm_num
    rw [h2m]
    decide

/-- Witness for claim C7 at a concrete unit and entry. -/
theorem C7_witness :
    (some (str "ms") ∈ ([some (str "s"), some (str "ms"), some (str "ns"),
        some (str "us"), some (str "B"), some (str "%"), some (str "c"), none] :
        List (Option (List Char))))
  ∧ unitFactor (some (str "ms")) = 1
  ∧ entryWrites (str "k") ⟨str "m", str "2", some (str "MB"), none, none, none, none⟩
      = (specUnscaledWrites (str "k")
           ⟨str "m", str "2", some (str "MB"), none, none, none, none⟩).map
          fun p => (p.1, FVal.scale p.2
            (unitFactor (some (str "MB")))) :=
  ⟨by decide, C7_unit_scaling.2.2.2.2.2.2.1 (some (str "ms")) (by decide),
   C7_unit_scaling.1 (str "k") ⟨str "m", str "2", some (str "MB"), none, none, none, none⟩⟩

/-- Claim C10 counterexample: with entries labelled a.warn, a.warn and a
(the last carrying a warn field), the sample k.a.warn ends with value 9,
written by the warn field of the entry labelled a, not with value 2 from
the last entry labelled a.warn as the claim states. -/
theorem C10_counterexample :
    (digest .MonitoringPlugin (str "|a.warn=1 a.warn=2 a=3;9;") (str "k") 0).map
        (fun r => lookupS r.values (str "k.a.warn"))
      = some (some (FVal.num 9))
  ∧ FVal.num 9 ≠ FVal.num 2 := ⟨by decide, by decide⟩

/-- Claim C10 amended: sample-set keys are always unique; the value
retained under any key is the value of the last write deriving that key
in entry order (normally the last entry with the label, but a later
entry whose warn/crit/min/max key collides with the label key of an
earlier entry overwrites it); and every parsed entry leaves its label
sample present. -/
theorem C10_last_write_wins :
    (∀ (s key : List Char) (now : Nat) (r : ItemResult),
       digest .MonitoringPlugin s key now = some r → (r.values.map Prod.fst).Nodup)
  ∧ (∀ (key : List Char) (caps : List PerfCapture) (v0 : SampleSet) (k : List Char),
       lookupS (perfFold key caps v0) k
         = match lastWrite (concatWrites key caps) k with
           | some v => some v
           | none => lookupS v0 k)
  ∧ (∀ (key : List Char) (caps : List PerfCapture) (v0 : SampleSet) (cap : PerfCapture),
       cap ∈ caps →
       lookupS (perfFold key caps v0) (key ++ str "." ++ cap.label) ≠ none) := by
  refine ⟨?_, ?_, ?_⟩
  · intro s key now r h
    have h2 : (⟨now, key, trim s, mpValues key (trim s)⟩ : ItemResult) = r :=
      Option.some.inj h
    rw [← h2]
    show ((mpValues key (trim s)).map Prod.fst).Nodup
    unfold mpValues
    cases searchOutput (trim s) with
    | none => exact List.nodup_nil
    | some pr =>
        obtain ⟨st, perf⟩ := pr
        show ((perfFold key (perfCaptures perf)
            (match st.bind statusValue with
             | some q => insertS [] (key ++ str ".status") (FVal.num q)
             | none => [])).map Prod.fst).Nodup
        rw [perfFold_eq_insertAll]
        apply keys_nodup_insertAll
        cases st.bind statusValue with
        | some q => exact List.nodup_singleton _
        | none => exact List.nodup_nil
  · intro key caps v0 k
    rw [perfFold_eq_insertAll, lookupS_insertAll]
  · intro key caps v0 cap hmem hnone
    rw [perfFold_eq_insertAll, lookupS_insertAll] at hnone
    cases hl : lastWrite (concatWrites key caps) (key ++ str "." ++ cap.label) with
    | some v =>
        rw [hl] at hnone
        exact Option.noConfusion hnone
    | none =>
        exact absurd (mainKey_mem_concatWrites key caps cap hmem)
          ((lastWrite_eq_none_iff _ _).mp hl)

/-- Witness for the amended claim C10 at a concrete input and entry. -/
theorem C10_witness :
    digest .MonitoringPlugin (str "|a=1") (str "k") 0
      = some ⟨0, str "k", str "|a=1", [(str "k.a", FVal.num 1)]⟩
  ∧ ((⟨0, str "k", str "|a=1", [(str "k.a", FVal.num 1)]⟩ : ItemResult).values.map
        Prod.fst).Nodup
  ∧ ⟨str "a", str "1", none, none, none, none, none⟩
      ∈ [(⟨str "a", str "1", none, none, none, none, none⟩ : PerfCapture)]
  ∧ lookupS (perfFold (str "k")
        [⟨str "a", str "1", none, none, none, none, none⟩] [])
        (str "k" ++ str "." ++ str "a") ≠ none :=
  ⟨by decide,
   C10_last_write_wins.1 (str "|a=1") (str "k") 0 _ (by decide),
   by decide,
   C10_last_write_wins.2.2 (str "k") [⟨str "a", str "1", none, none, none, none, none⟩]
     [] ⟨str "a", str "1", none, none, none, none, none⟩ (by decide)⟩

end Antikoerper
